import Mathlib

/-!
Verification of the splitfile incremental backup tool.

This file shallowly embeds the core of the Rust sources
(`src/index.rs`, `src/copy.rs`, `src/util.rs`, `src/main.rs`) into Lean and
proves (or refutes) the behavioural claims of the natural-language
specification.

Conventions used by the embedding:
* Machine integers (`u64`, `usize`) are modelled as `Nat`; the only place
  where wrap-around behaviour is observable is the `as isize` cast inside
  `TruncateReadStream::seek`, which is modelled explicitly by `wrap64`.
* Rust's `Result` becomes `Except`, `Option` stays `Option`.
* I/O streams are modelled by explicit state (pure byte-list readers) or by
  "scripts" describing the answers a `Write` implementation returns.
* Rust's stable `sort_by_key` is modelled by `List.insertionSort` on the
  lexicographic `(start, end)` key; any two stable sorts agree extensionally,
  so this is a faithful model of `slice::sort_by_key`.
-/

/-! ## Data model (`src/index.rs`) -/

/-- `Slice` from `src/index.rs`: half-open byte range `[start, stop)`.
The Rust field `end` is called `stop` here because `end` is a Lean keyword. -/
structure Slice where
  start : Nat
  stop : Nat
deriving DecidableEq, Repr

/-- `Slice::len` from `src/index.rs` (`self.end - self.start`, `u64`
subtraction; modelled by truncating `Nat` subtraction). -/
def Slice.len (s : Slice) : Nat := s.stop - s.start

/-- `Meta` from `src/index.rs`. -/
structure Meta where
  name : List String
  comment : List String
deriving DecidableEq, Repr

/-- `HashIdentifier` from `src/index.rs` (a single algorithm). -/
inductive HashIdentifier where
  | sha3_256
deriving DecidableEq, Repr

/-- `LocationData` from `src/index.rs`. The `Device` provenance descriptors
are opaque metadata never interpreted by the core, so the device payload is
left abstract (a free annotation string). -/
inductive LocationData where
  | thisBuffer
  | device (info : String)
  | file (path : String)
  | uri (uri : String)
deriving DecidableEq, Repr

/-- `Location` from `src/index.rs`: location data plus an optional
restricting sub-slice. -/
structure Location where
  data : LocationData
  slice : Option Slice
deriving DecidableEq, Repr

/-- `Fragment` from `src/index.rs`.  The `hashes: HashMap<HashIdentifier,
String>` field is modelled as an association list (at most one entry per
algorithm is relied upon via `lookupHash`). -/
structure Fragment where
  meta : Meta
  location : Location
  groups : List String
  hashes : List (HashIdentifier × String)
  geometry : Slice
  holes : List Slice
deriving DecidableEq, Repr

instance : Inhabited Fragment :=
  ⟨{ meta := ⟨[], []⟩, location := ⟨LocationData.thisBuffer, none⟩,
     groups := [], hashes := [], geometry := ⟨0, 0⟩, holes := [] }⟩

/-- `Index` from `src/index.rs`. -/
structure Index where
  meta : Meta
  fragments : List Fragment
deriving DecidableEq, Repr

/-- `HashMap::get` on the `hashes` field: first (and by invariant only)
entry for the given algorithm. -/
def lookupHash (hashes : List (HashIdentifier × String)) (k : HashIdentifier) :
    Option String :=
  (hashes.find? (fun p => p.1 == k)).map (fun p => p.2)

/-- `Meta::is_named` from `src/index.rs`. -/
def Meta.is_named (m : Meta) (name : String) : Bool :=
  m.name.any (fun n => n == name)

/-- `Fragment::is_named` from `src/index.rs`. -/
def Fragment.is_named (f : Fragment) (name : String) : Bool :=
  f.meta.is_named name

/-- `Fragment::in_group` from `src/index.rs`. -/
def Fragment.in_group (f : Fragment) (group : String) : Bool :=
  f.groups.any (fun g => g == group)

/-- Error cases of `Index::get_fragment_by_name` from `src/index.rs`:
"No such fragment" vs "Found two fragments named ..". -/
inductive LookupErr where
  | notFound
  | ambiguous
deriving DecidableEq, Repr

/-- `Index::get_fragment_by_name` from `src/index.rs`: a fold over the
enumerated fragment list that records the first match, fails on a second
match ("ambiguous"), and fails at the end when no match was found. -/
def Index.get_fragment_by_name (idx : Index) (name : String) :
    Except LookupErr Nat :=
  let folded : Except LookupErr (Option Nat) :=
    idx.fragments.enum.foldl
      (fun state p =>
        match state, (p.2.is_named name : Bool) with
        | Except.error e, _ => Except.error e
        | st, false => st
        | Except.ok (some j), true =>
          let _ := j
          Except.error LookupErr.ambiguous
        | Except.ok none, true => Except.ok (some p.1))
      (Except.ok none)
  match folded with
  | Except.error e => Except.error e
  | Except.ok none => Except.error LookupErr.notFound
  | Except.ok (some i) => Except.ok i

/-! ## Segment algebra (`src/main.rs`) -/

/-- `get_fragment_group` from `src/main.rs`: geometries of all fragments
whose `groups` contains `group`. -/
def get_fragment_group (idx : Index) (group : String) : List Slice :=
  (idx.fragments.filter (fun frag => frag.in_group group)).map
    (fun frag => frag.geometry)

/-- The `(start, end)` sort key ordering used by
`backed_up.sort_by_key(|frag| (frag.start, frag.end))` in
`determine_next_backup`: lexicographic comparison on `(start, stop)`. -/
def sliceKeyLe (a b : Slice) : Prop :=
  a.start < b.start ∨ (a.start = b.start ∧ a.stop ≤ b.stop)

instance : DecidableRel sliceKeyLe := fun a b => by
  unfold sliceKeyLe; infer_instance

/-- Stable sort by the `(start, end)` key, modelling
`backed_up.sort_by_key(|frag| (frag.start, frag.end))`. -/
def sortSlices (l : List Slice) : List Slice :=
  List.insertionSort sliceKeyLe l

/-- The scanning loop of `determine_next_backup` from `src/main.rs`
(lines 213–220): for each segment, if `seg.start <= to_backup.start` the
cursor is set to `seg.end` (note: not `max`), otherwise the end is clipped
to `seg.start` and the scan stops. -/
def next_uncovered_walk : List Slice → Slice → Slice
  | [], acc => acc
  | seg :: rest, acc =>
    if seg.start ≤ acc.start then
      next_uncovered_walk rest ⟨seg.stop, acc.stop⟩
    else
      ⟨acc.start, seg.start⟩

/-- `determine_next_backup` from `src/main.rs`: sort the group's
geometries by `(start, end)`, walk them, and return the remaining range
if it is non-empty. -/
def determine_next_backup (idx : Index) (to_backup : Slice) (group : String) :
    Option Slice :=
  let backed_up := sortSlices (get_fragment_group idx group)
  let r := next_uncovered_walk backed_up to_backup
  if r.start < r.stop then some r else none

/-- Modelled from the spec (§4.1 `next_uncovered`, step 2): the walk as the
spec words it, advancing the cursor with `cursor = max(cursor, segment.end)`
instead of plain `segment.end`. Used to compare the code against the spec's
algorithm. -/
def spec_walk : List Slice → Slice → Slice
  | [], acc => acc
  | seg :: rest, acc =>
    if seg.start ≤ acc.start then
      spec_walk rest ⟨max acc.start seg.stop, acc.stop⟩
    else
      ⟨acc.start, seg.start⟩

/-- Modelled from the spec (§4.1 `next_uncovered`): sort ascending by
`(start, end)`, walk with the `max`-advancing cursor, return
`Some {cursor, end}` iff `cursor < end`. -/
def spec_next_uncovered (full : Slice) (covering : List Slice) : Option Slice :=
  let r := spec_walk (sortSlices covering) full
  if r.start < r.stop then some r else none

/-- The walk of the amended algorithm description, written independently
of the embedding of the code: like the spec's walk but assigning
`cursor = segment.end` without taking the maximum. -/
def amended_walk : List Slice → Slice → Slice
  | [], acc => acc
  | seg :: rest, acc =>
    if seg.start ≤ acc.start then
      amended_walk rest ⟨seg.stop, acc.stop⟩
    else
      ⟨acc.start, seg.start⟩

/-- The amended description of the code's algorithm: identical to the
spec's `next_uncovered` except that the cursor-advance step assigns
`cursor = segment.end` without taking the maximum. -/
def amended_next_uncovered (full : Slice) (covering : List Slice) :
    Option Slice :=
  let r := amended_walk (sortSlices covering) full
  if r.start < r.stop then some r else none

/-- A byte offset `x` is covered by a set of slices if some slice contains
it (`start <= x < end`). -/
def coveredBy (covering : List Slice) (x : Nat) : Bool :=
  covering.any (fun s => decide (s.start ≤ x ∧ x < s.stop))

/-- Build an index whose fragments carry exactly the given geometries, all
tagged with the given group (used to exercise `determine_next_backup` on
concrete covering sets). -/
def mkGroupIndex (slices : List Slice) (group : String) : Index :=
  { meta := ⟨[], []⟩,
    fragments := slices.map (fun s =>
      { meta := ⟨[], []⟩, location := ⟨LocationData.thisBuffer, none⟩,
        groups := [group], hashes := [], geometry := s, holes := [] }) }

/-! ### Lemmas about the `determine_next_backup` walk -/

theorem coveredBy_of_mem {covering : List Slice} {s : Slice}
    (hs : s ∈ covering) {x : Nat} (h1 : s.start ≤ x) (h2 : x < s.stop) :
    coveredBy covering x = true := by
  unfold coveredBy
  rw [List.any_eq_true]
  exact ⟨s, hs, by simp [h1, h2]⟩

theorem walk_sound (cov : List Slice) (fs : Nat) :
    ∀ (l : List Slice) (acc : Slice),
      (∀ s ∈ l, s ∈ cov) →
      (∀ x, fs ≤ x → x < acc.start → coveredBy cov x = true) →
      ∀ x, fs ≤ x → x < (next_uncovered_walk l acc).start →
        coveredBy cov x = true := by
  intro l
  induction l with
  | nil => intro acc _ hinv x hx1 hx2; exact hinv x hx1 hx2
  | cons seg rest ih =>
    intro acc hmem hinv x hx1 hx2
    by_cases hle : seg.start ≤ acc.start
    · have hrec := ih ⟨seg.stop, acc.stop⟩
        (fun s hs => hmem s (List.mem_cons_of_mem _ hs))
        (fun y hy1 hy2 => by
          by_cases hylt : y < acc.start
          · exact hinv y hy1 hylt
          · exact coveredBy_of_mem (hmem seg (List.mem_cons_self _ _))
              (le_trans hle (le_of_not_lt hylt)) hy2)
      have : next_uncovered_walk (seg :: rest) acc =
          next_uncovered_walk rest ⟨seg.stop, acc.stop⟩ := by
        simp [next_uncovered_walk, hle]
      rw [this] at hx2
      exact hrec x hx1 hx2
    · have : next_uncovered_walk (seg :: rest) acc = ⟨acc.start, seg.start⟩ := by
        simp [next_uncovered_walk, hle]
      rw [this] at hx2
      exact hinv x hx1 hx2

theorem walk_stop_dichotomy :
    ∀ (l : List Slice) (acc : Slice),
      (next_uncovered_walk l acc).stop = acc.stop ∨
      (next_uncovered_walk l acc).start < (next_uncovered_walk l acc).stop := by
  intro l
  induction l with
  | nil => intro acc; exact Or.inl rfl
  | cons seg rest ih =>
    intro acc
    by_cases hle : seg.start ≤ acc.start
    · have : next_uncovered_walk (seg :: rest) acc =
          next_uncovered_walk rest ⟨seg.stop, acc.stop⟩ := by
        simp [next_uncovered_walk, hle]
      rw [this]
      exact ih ⟨seg.stop, acc.stop⟩
    · have : next_uncovered_walk (seg :: rest) acc = ⟨acc.start, seg.start⟩ := by
        simp [next_uncovered_walk, hle]
      rw [this]
      exact Or.inr (lt_of_not_le hle)

theorem mem_sortSlices {s : Slice} {l : List Slice} :
    s ∈ sortSlices l → s ∈ l := by
  intro h
  exact (List.mem_insertionSort sliceKeyLe).1 h

theorem amended_walk_eq_next_uncovered_walk :
    ∀ (l : List Slice) (acc : Slice),
      amended_walk l acc = next_uncovered_walk l acc := by
  intro l
  induction l with
  | nil => intro acc; rfl
  | cons seg rest ih =>
    intro acc
    by_cases hle : seg.start ≤ acc.start
    · simp [amended_walk, next_uncovered_walk, hle, ih]
    · simp [amended_walk, next_uncovered_walk, hle]

/-! ### Claim C2 -/

/-- C2 counterexample: `determine_next_backup` does not follow the spec's
`max`-advancing algorithm.  On the covering set `{[0,10), [1,2)}` (sorted
order `[0,10), [1,2)`) and full range `[0,20)` the code's cursor moves
backward from 10 to 2 and the code returns `[2,20)`, while the spec's
algorithm returns `[10,20)`. -/
theorem nextBackup_deviates_from_spec_walk :
    determine_next_backup (mkGroupIndex [⟨0,10⟩, ⟨1,2⟩] "backup") ⟨0,20⟩
      "backup" = some ⟨2,20⟩ ∧
    spec_next_uncovered ⟨0,20⟩ [⟨0,10⟩, ⟨1,2⟩] = some ⟨10,20⟩ := by
  constructor <;> decide

/-- C2 (amended): `determine_next_backup` follows the spec's algorithm
except in the cursor-advance step, which assigns `cursor = segment.end`
instead of `max(cursor, segment.end)` — so the cursor moves backward when a
later-sorted segment ends before the current cursor.  With that single
change, the code equals the spec-style description exactly: sort the
group's geometries ascending by `(start, end)`, walk them with the
(non-`max`) cursor update, clip and stop at the first gap, and return
`Some{cursor, end}` iff `cursor < end`. -/
theorem nextBackup_eq_amended_walk (idx : Index) (full : Slice)
    (group : String) :
    determine_next_backup idx full group =
      amended_next_uncovered full (get_fragment_group idx group) := by
  unfold determine_next_backup amended_next_uncovered
  rw [amended_walk_eq_next_uncovered_walk]

/-! ### Claim C3 -/

/-- C3 counterexample: `determine_next_backup` is not sound and complete
with respect to true coverage.  With covering `{[0,10), [1,2), [3,4)}` and
full range `[0,20)` the code reports the gap `[2,3)` although byte 2 is
covered (by `[0,10)`) and the true first uncovered gap is `[10,20)` — so
the report is also strictly narrower than the true gap.  Moreover, with
covering `{[0,20), [1,2)}` the full range `[0,20)` is entirely covered yet
the code returns `some [2,20)` rather than `none`. -/
theorem nextBackup_reports_covered_bytes :
    (determine_next_backup (mkGroupIndex [⟨0,10⟩, ⟨1,2⟩, ⟨3,4⟩] "backup")
        ⟨0,20⟩ "backup" = some ⟨2,3⟩ ∧
      coveredBy [⟨0,10⟩, ⟨1,2⟩, ⟨3,4⟩] 2 = true ∧
      ((List.range 10).all (fun x => coveredBy [⟨0,10⟩, ⟨1,2⟩, ⟨3,4⟩] x))
        = true ∧
      coveredBy [⟨0,10⟩, ⟨1,2⟩, ⟨3,4⟩] 10 = false ∧
      Slice.len ⟨2,3⟩ < Slice.len ⟨10,20⟩) ∧
    (determine_next_backup (mkGroupIndex [⟨0,20⟩, ⟨1,2⟩] "backup") ⟨0,20⟩
        "backup" = some ⟨2,20⟩ ∧
      ((List.range 20).all (fun x => coveredBy [⟨0,20⟩, ⟨1,2⟩] x)) = true) := by
  constructor <;> decide

/-- C3 (amended): `determine_next_backup` never skips uncovered data: when
it returns `none` every byte of the full range is covered by some geometry
of the group, and when it returns a gap, every byte of the full range
strictly below the gap's start is covered.  (The unsoundness directions
fail: the reported gap may contain covered bytes, may be narrower than the
true first gap, and a fully covered range may still yield `some`.) -/
theorem nextBackup_never_skips_uncovered_data (idx : Index) (full : Slice)
    (group : String) :
    (determine_next_backup idx full group = none →
      ∀ x, full.start ≤ x → x < full.stop →
        coveredBy (get_fragment_group idx group) x = true) ∧
    (∀ g, determine_next_backup idx full group = some g →
      ∀ x, full.start ≤ x → x < g.start →
        coveredBy (get_fragment_group idx group) x = true) := by
  have hsound := walk_sound (get_fragment_group idx group) full.start
    (sortSlices (get_fragment_group idx group)) full
    (fun s hs => mem_sortSlices hs)
    (fun x hx1 hx2 => absurd (lt_of_le_of_lt hx1 hx2) (lt_irrefl full.start))
  constructor
  · intro hnone x hx1 hx2
    unfold determine_next_backup at hnone
    by_cases hlt : (next_uncovered_walk
        (sortSlices (get_fragment_group idx group)) full).start <
        (next_uncovered_walk (sortSlices (get_fragment_group idx group))
          full).stop
    · simp [hlt] at hnone
    · rcases walk_stop_dichotomy
        (sortSlices (get_fragment_group idx group)) full with hstop | hstop
      · exact hsound x hx1 (lt_of_lt_of_le (hstop ▸ hx2) (le_of_not_lt hlt))
      · exact absurd hstop hlt
  · intro g hsome x hx1 hx2
    unfold determine_next_backup at hsome
    by_cases hlt : (next_uncovered_walk
        (sortSlices (get_fragment_group idx group)) full).start <
        (next_uncovered_walk (sortSlices (get_fragment_group idx group))
          full).stop
    · simp [hlt] at hsome
      exact hsound x hx1 (hsome ▸ hx2)
    · simp [hlt] at hsome

/-- Witness for C3 (amended): on the fully covered range `[0,20)` with the
single covering slice `[0,20)` the walk returns `none`, and the theorem
yields that byte 5 is covered. -/
theorem nextBackup_never_skips_uncovered_data_witness :
    coveredBy (get_fragment_group (mkGroupIndex [⟨0,20⟩] "g") "g") 5 = true :=
  (nextBackup_never_skips_uncovered_data (mkGroupIndex [⟨0,20⟩] "g") ⟨0,20⟩
    "g").1 (by decide) 5 (by decide) (by decide)

/-! ## Copy-and-hash engine (`src/util.rs`, `src/copy.rs`) -/

/-- One answer of a `Write` implementation to a single `write` call:
accept `n` bytes, fail with `ErrorKind::Interrupted`, or fail with any
other error. -/
inductive WriteStep where
  | ok (n : Nat)
  | intr
  | err
deriving DecidableEq, Repr

/-- One answer of the source per `read_nointr` call in `process_chunks`
(`src/util.rs`): a chunk of bytes (empty chunk = end of stream; in the
program each chunk holds at most 8 KiB, the buffer capacity) or a
non-`Interrupted` read error. -/
inductive SrcStep where
  | chunk (bytes : List Nat)
  | rerr
deriving DecidableEq, Repr

/-- Classification of the `Result` returned by `copy_and_hash_with`: the
propagated hash-sink error, the propagated destination write error, or a
read error propagated out of `process_chunks`. -/
inductive CopyErr where
  | srcErr
  | dstErr
  | hashErr
deriving DecidableEq, Repr

/-- The loop body of `try_write_all` from `src/util.rs`: repeatedly write
the unwritten tail of the buffer until it is exhausted or a
non-`Interrupted` error occurs, counting only bytes actually accepted.
The writer is modelled by its script of answers; `ok n` accepts
`min n remaining` bytes (the `Write` contract guarantees a writer never
claims more bytes than it was offered); an exhausted script accepts the
whole remainder.  Returns (bytes written, remaining script, success). -/
def try_write_all_go : List WriteStep → Nat → Nat → Nat × List WriteStep × Bool
  | script, len, written =>
    if len ≤ written then (written, script, true)
    else
      match script with
      | [] => (len, [], true)
      | WriteStep.ok n :: rest =>
        try_write_all_go rest len (written + min n (len - written))
      | WriteStep.intr :: rest => try_write_all_go rest len written
      | WriteStep.err :: rest => (written, rest, false)

/-- `try_write_all` from `src/util.rs` applied to a byte buffer. -/
def try_write_all (script : List WriteStep) (buf : List Nat) :
    Nat × List WriteStep × Bool :=
  try_write_all_go script buf.length 0

/-- The observables of a `copy_and_hash_with` run: `red` (bytes read),
`written` (bytes accepted by the destination), `hashed` (bytes accepted by
the hash sink), per-chunk pairs of (bytes accepted by the destination,
length of the slice fed to the hash sink), the `fatal` flag, and the
returned `Result`. -/
structure CopyOut where
  red : Nat
  written : Nat
  hashed : Nat
  feeds : List (Nat × Nat)
  fatal : Bool
  res : Option CopyErr
deriving DecidableEq, Repr

/-- The chunk loop of `copy_and_hash_with` from `src/copy.rs` (the closure
passed to `process_chunks`): per chunk, write as much as possible to the
destination, feed exactly the successfully-written prefix
(`&chunk[..chunk_written]`) to the hash sink, mark `fatal` and abort with
the hasher's error if the hash write failed, otherwise propagate a
destination write error, otherwise continue with the next chunk. -/
def copy_loop : List SrcStep → List WriteStep → List WriteStep →
    Nat → Nat → Nat → List (Nat × Nat) → CopyOut
  | [], _, _, red, written, hashed, feeds =>
    ⟨red, written, hashed, feeds, false, none⟩
  | SrcStep.rerr :: _, _, _, red, written, hashed, feeds =>
    ⟨red, written, hashed, feeds, false, some CopyErr.srcErr⟩
  | SrcStep.chunk c :: rest, dsts, hs, red, written, hashed, feeds =>
    if c.isEmpty then ⟨red, written, hashed, feeds, false, none⟩
    else
      let red' := red + c.length
      let dw := try_write_all dsts c
      let written' := written + dw.1
      let fed := (c.take dw.1).length
      let hw := try_write_all hs (c.take dw.1)
      let hashed' := hashed + hw.1
      let feeds' := feeds ++ [(dw.1, fed)]
      if hw.2.2 = false then
        ⟨red', written', hashed', feeds', true, some CopyErr.hashErr⟩
      else if dw.2.2 = false then
        ⟨red', written', hashed', feeds', false, some CopyErr.dstErr⟩
      else copy_loop rest dw.2.1 hw.2.1 red' written' hashed' feeds'

/-- `copy_and_hash_with` from `src/copy.rs`: run the chunk loop, then, if
the running written and hashed counters diverged, force the `fatal` flag
(the backstop after the loop only adds context to the `Result`; it does not
change its success/error status). -/
def copy_and_hash_with (src : List SrcStep) (dsts hs : List WriteStep) :
    CopyOut :=
  let o := copy_loop src dsts hs 0 0 0 []
  if o.written ≠ o.hashed then { o with fatal := true } else o

/-! ### Lemmas about the copy engine -/

theorem try_write_all_go_base {script : List WriteStep} {len w : Nat}
    (h : len ≤ w) : try_write_all_go script len w = (w, script, true) := by
  rw [try_write_all_go.eq_def]
  simp [h]

theorem try_write_all_go_nil {len w : Nat} (h : ¬ len ≤ w) :
    try_write_all_go [] len w = (len, [], true) := by
  rw [try_write_all_go.eq_def]
  simp [h]

theorem try_write_all_go_ok {rest : List WriteStep} {n len w : Nat}
    (h : ¬ len ≤ w) :
    try_write_all_go (WriteStep.ok n :: rest) len w =
      try_write_all_go rest len (w + min n (len - w)) := by
  rw [try_write_all_go.eq_def]
  simp [h]

theorem try_write_all_go_intr {rest : List WriteStep} {len w : Nat}
    (h : ¬ len ≤ w) :
    try_write_all_go (WriteStep.intr :: rest) len w =
      try_write_all_go rest len w := by
  rw [try_write_all_go.eq_def]
  simp [h]

theorem try_write_all_go_err {rest : List WriteStep} {len w : Nat}
    (h : ¬ len ≤ w) :
    try_write_all_go (WriteStep.err :: rest) len w = (w, rest, false) := by
  rw [try_write_all_go.eq_def]
  simp [h]

theorem try_write_all_go_spec :
    ∀ (script : List WriteStep) (len w : Nat), w ≤ len →
      ((try_write_all_go script len w).2.2 = true →
        (try_write_all_go script len w).1 = len) ∧
      ((try_write_all_go script len w).2.2 = false →
        (try_write_all_go script len w).1 < len) ∧
      w ≤ (try_write_all_go script len w).1 := by
  intro script
  induction script with
  | nil =>
    intro len w hw
    by_cases h : len ≤ w
    · rw [try_write_all_go_base h]
      exact ⟨fun _ => by omega, fun hf => by simp at hf, le_refl w⟩
    · rw [try_write_all_go_nil h]
      exact ⟨fun _ => rfl, fun hf => by simp at hf, hw⟩
  | cons step rest ih =>
    intro len w hw
    by_cases h : len ≤ w
    · rw [try_write_all_go_base h]
      exact ⟨fun _ => by omega, fun hf => by simp at hf, le_refl w⟩
    · match step with
      | WriteStep.ok n =>
        rw [try_write_all_go_ok h]
        have := ih len (w + min n (len - w)) (by omega)
        exact ⟨this.1, this.2.1, by omega⟩
      | WriteStep.intr =>
        rw [try_write_all_go_intr h]
        exact ih len w hw
      | WriteStep.err =>
        rw [try_write_all_go_err h]
        exact ⟨fun ht => by simp at ht, fun _ => by omega, le_refl w⟩

/-- Specialisation of `try_write_all_go_spec` to `try_write_all`: on
success the whole buffer was accepted, on failure a strict prefix was. -/
theorem try_write_all_spec (script : List WriteStep) (buf : List Nat) :
    ((try_write_all script buf).2.2 = true →
      (try_write_all script buf).1 = buf.length) ∧
    ((try_write_all script buf).2.2 = false →
      (try_write_all script buf).1 < buf.length) := by
  have := try_write_all_go_spec script buf.length 0 (Nat.zero_le _)
  exact ⟨this.1, this.2.1⟩

/-- The invariant of a `copy_and_hash_with` run: the fatal flag is
equivalent to the hash-sink error, a hash-sink error leaves the hashed
counter strictly behind the written counter, any other outcome keeps the
two counters equal, and each chunk fed to the hash sink is exactly the
destination-accepted prefix. -/
def CopyOutGood (o : CopyOut) : Prop :=
  (o.fatal = true ↔ o.res = some CopyErr.hashErr) ∧
  (o.res = some CopyErr.hashErr → o.hashed < o.written) ∧
  (o.res ≠ some CopyErr.hashErr → o.written = o.hashed) ∧
  o.feeds.all (fun p => p.1 == p.2) = true

theorem copy_loop_chunk {c : List Nat} (hc : ¬ c.isEmpty = true)
    (rest : List SrcStep) (dsts hs : List WriteStep)
    (red written hashed : Nat) (feeds : List (Nat × Nat)) :
    copy_loop (SrcStep.chunk c :: rest) dsts hs red written hashed feeds =
      (let dw := try_write_all dsts c
       let hw := try_write_all hs (c.take dw.1)
       if hw.2.2 = false then
         ⟨red + c.length, written + dw.1, hashed + hw.1,
           feeds ++ [(dw.1, (c.take dw.1).length)], true,
           some CopyErr.hashErr⟩
       else if dw.2.2 = false then
         ⟨red + c.length, written + dw.1, hashed + hw.1,
           feeds ++ [(dw.1, (c.take dw.1).length)], false,
           some CopyErr.dstErr⟩
       else
         copy_loop rest dw.2.1 hw.2.1 (red + c.length) (written + dw.1)
           (hashed + hw.1) (feeds ++ [(dw.1, (c.take dw.1).length)])) := by
  conv_lhs => rw [copy_loop]
  simp [hc]

theorem copy_loop_spec :
    ∀ (src : List SrcStep) (dsts hs : List WriteStep)
      (red written hashed : Nat) (feeds : List (Nat × Nat)),
      written = hashed →
      feeds.all (fun p => p.1 == p.2) = true →
      CopyOutGood (copy_loop src dsts hs red written hashed feeds) := by
  intro src
  induction src with
  | nil =>
    intro dsts hs red written hashed feeds heq hf
    refine ⟨by simp [copy_loop], by simp [copy_loop], fun _ => ?_, ?_⟩
    · simpa [copy_loop] using heq
    · simpa [copy_loop] using hf
  | cons step rest ih =>
    intro dsts hs red written hashed feeds heq hf
    match step with
    | SrcStep.rerr =>
      refine ⟨by simp [copy_loop], by simp [copy_loop], fun _ => ?_, ?_⟩
      · simpa [copy_loop] using heq
      · simpa [copy_loop] using hf
    | SrcStep.chunk c =>
      by_cases hc : c.isEmpty = true
      · refine ⟨by simp [copy_loop, hc], by simp [copy_loop, hc],
          fun _ => ?_, ?_⟩
        · simpa [copy_loop, hc] using heq
        · simpa [copy_loop, hc] using hf
      · rw [copy_loop_chunk hc]
        have hdw := try_write_all_spec dsts c
        have hdwle : (try_write_all dsts c).1 ≤ c.length := by
          by_cases h : (try_write_all dsts c).2.2 = true
          · exact le_of_eq (hdw.1 h)
          · exact le_of_lt (hdw.2 (by simpa using h))
        have hfed : (c.take (try_write_all dsts c).1).length =
            (try_write_all dsts c).1 := by
          simp [List.length_take, Nat.min_eq_left hdwle]
        have hhw := try_write_all_spec hs (c.take (try_write_all dsts c).1)
        rw [hfed] at hhw
        simp only []
        by_cases hhok : (try_write_all hs
            (c.take (try_write_all dsts c).1)).2.2 = false
        · rw [if_pos hhok]
          refine ⟨by simp, fun _ => ?_, fun hne => absurd rfl hne, ?_⟩
          · have h2 := hhw.2 hhok
            dsimp only
            omega
          · simp [List.all_append, hf, hfed]
        · rw [if_neg hhok]
          have hhok' : (try_write_all hs
              (c.take (try_write_all dsts c).1)).2.2 = true := by
            simpa using hhok
          have hheq : (try_write_all hs
              (c.take (try_write_all dsts c).1)).1 =
              (try_write_all dsts c).1 := hhw.1 hhok'
          by_cases hdok : (try_write_all dsts c).2.2 = false
          · rw [if_pos hdok]
            refine ⟨by simp, by simp, fun _ => ?_, ?_⟩
            · simp [hheq, heq]
            · simp [List.all_append, hf, hfed]
          · rw [if_neg hdok]
            exact ih _ _ _ _ _ _ (by omega)
              (by simp [List.all_append, hf, hfed])

/-! ### Claim C1 -/

/-- C1: for every source, destination and hash sink, `copy_and_hash_with`
returns a non-fatal outcome exactly when the bytes-written counter equals
the bytes-hashed counter (the count of bytes fed to and accepted by the
hash sink); in particular, whenever the two running counters diverge the
returned fatal flag is true. -/
theorem copy_nonfatal_iff_counters_agree (src : List SrcStep)
    (dsts hs : List WriteStep) :
    (copy_and_hash_with src dsts hs).fatal = false ↔
      (copy_and_hash_with src dsts hs).written =
        (copy_and_hash_with src dsts hs).hashed := by
  have hg := copy_loop_spec src dsts hs 0 0 0 [] rfl rfl
  unfold copy_and_hash_with
  by_cases h : (copy_loop src dsts hs 0 0 0 []).written =
      (copy_loop src dsts hs 0 0 0 []).hashed
  · have hfatal : (copy_loop src dsts hs 0 0 0 []).fatal = false := by
      by_cases hfa : (copy_loop src dsts hs 0 0 0 []).fatal = true
      · have := hg.2.1 (hg.1.mp hfa)
        omega
      · simpa using hfa
    simp [h, hfatal]
  · simp [h]

/-! ### Claim C4 -/

/-- C4: `copy_and_hash_with` classifies failures as specified: every chunk
fed to the hash sink is exactly the prefix actually accepted by the
destination (the `feeds` trace records, per chunk, the destination-accepted
count and the length fed to the hash sink); the fatal flag is set exactly
when writing to the hash sink failed (in which case the loop returns the
hasher's error at that chunk and processes no further chunks); and when
only the destination write fails, the destination error is propagated but
the fatal flag is not set. -/
theorem copy_failure_classification (src : List SrcStep)
    (dsts hs : List WriteStep) :
    ((copy_and_hash_with src dsts hs).feeds.all
        (fun p => p.1 == p.2) = true) ∧
    ((copy_and_hash_with src dsts hs).fatal = true ↔
      (copy_and_hash_with src dsts hs).res = some CopyErr.hashErr) ∧
    ((copy_and_hash_with src dsts hs).res = some CopyErr.dstErr →
      (copy_and_hash_with src dsts hs).fatal = false) := by
  have hg := copy_loop_spec src dsts hs 0 0 0 [] rfl rfl
  unfold copy_and_hash_with
  by_cases h : (copy_loop src dsts hs 0 0 0 []).written =
      (copy_loop src dsts hs 0 0 0 []).hashed
  · have hfatal : (copy_loop src dsts hs 0 0 0 []).fatal = false := by
      by_cases hfa : (copy_loop src dsts hs 0 0 0 []).fatal = true
      · have := hg.2.1 (hg.1.mp hfa)
        omega
      · simpa using hfa
    refine ⟨by simpa [h] using hg.2.2.2, by simpa [h] using hg.1, ?_⟩
    intro _
    simp [h, hfatal]
  · have hres : (copy_loop src dsts hs 0 0 0 []).res =
        some CopyErr.hashErr := by
      by_cases hr : (copy_loop src dsts hs 0 0 0 []).res =
          some CopyErr.hashErr
      · exact hr
      · exact absurd (hg.2.2.1 hr) h
    refine ⟨by simpa [h] using hg.2.2.2, by simp [h, hres], ?_⟩
    intro hdst
    rw [if_pos h] at hdst
    simp only [] at hdst
    rw [hres] at hdst
    simp at hdst

/-- Witness for C4: a destination that rejects the first write outright
produces the propagated destination error without the fatal flag. -/
theorem copy_failure_classification_witness :
    (copy_and_hash_with [SrcStep.chunk [1, 2, 3]] [WriteStep.err] []).fatal
      = false :=
  (copy_failure_classification [SrcStep.chunk [1, 2, 3]] [WriteStep.err]
    []).2.2 (by decide)

/-! ## Bounded stream adapter (`src/util.rs`) -/

/-- A pure seekable byte source standing for the `R: Read + Seek` wrapped
by `TruncateReadStream` (in the workflows this is a regular file): `read`
returns the next at-most-`n` bytes and advances, returning zero bytes at
end of data; seeking repositions absolutely (past-end positions are legal
for files). -/
structure ArrayReader where
  data : List Nat
  pos : Nat
deriving DecidableEq, Repr

/-- One `Read::read` call on the pure source, with a buffer of size `n`:
returns the bytes read and the advanced source. -/
def ArrayReader.read (r : ArrayReader) (n : Nat) : List Nat × ArrayReader :=
  let bytes := (r.data.drop r.pos).take n
  (bytes, { r with pos := r.pos + bytes.length })

/-- `Seek::seek(SeekFrom::Start(p))` on the pure source. -/
def ArrayReader.seekTo (r : ArrayReader) (p : Nat) : ArrayReader :=
  { r with pos := p }

/-- `TruncateReadStream` from `src/util.rs`. -/
structure TruncateReadStream where
  inner : ArrayReader
  limit : Nat
  pos : Nat
  extended : Bool
deriving DecidableEq, Repr

/-- `TruncateReadStream::new` from `src/util.rs`: records the inner
stream's current position and sets `limit` to `limit + pos`. -/
def TruncateReadStream.new (inner : ArrayReader) (limit : Nat) :
    TruncateReadStream :=
  { inner := inner, limit := limit + inner.pos, pos := inner.pos,
    extended := false }

/-- `<TruncateReadStream as Read>::read` from `src/util.rs`, returning the
bytes placed into the caller's buffer of size `bufLen` together with the
successor state: end-of-stream exactly at `pos == limit`; after a synthetic
fill the inner reader is first re-seeked to the adapter's position; the
request is clamped to `limit - pos`; a zero-byte inner read fabricates
`local_limit` zero bytes, advances the position as if they were read, and
sets the `extended` flag. -/
def TruncateReadStream.read (t : TruncateReadStream) (bufLen : Nat) :
    List Nat × TruncateReadStream :=
  if t.pos = t.limit then ([], t)
  else
    let inner0 := if t.extended then t.inner.seekTo t.pos else t.inner
    let localLimit := min bufLen (t.limit - t.pos)
    let rd := inner0.read localLimit
    if rd.1.length = 0 then
      (List.replicate localLimit 0,
        { t with inner := rd.2, pos := t.pos + localLimit, extended := true })
    else
      (rd.1,
        { t with
            inner := rd.2
            pos := t.pos + rd.1.length
            extended := false })

/-- Two's-complement wrap into `[-2^63, 2^63)`: models `as isize` casts on
a 64-bit target and the wrap-around of `isize` arithmetic in release
builds. -/
def wrap64 (z : Int) : Int := (z + 2 ^ 63) % 2 ^ 64 - 2 ^ 63

/-- `std::io::SeekFrom`: `Start(u64)`, `Current(i64)`, `End(i64)`.  The
`End` variant is named `fromEnd` because `end` is a Lean keyword. -/
inductive SeekFrom where
  | start (dst : Nat)
  | current (dst : Int)
  | fromEnd (dst : Int)
deriving DecidableEq, Repr

/-- `TruncateReadStreamError` from `src/util.rs`. -/
inductive TruncateReadStreamError where
  | negativeSeek
  | seekPastEnd
deriving DecidableEq, Repr

/-- `<TruncateReadStream as Seek>::seek` from `src/util.rs`: resolve the
target with `isize` arithmetic (`Start` absolute, `Current` relative to
`pos`, `End` relative to `limit` — not the inner stream's end), reject a
negative target with `NegativeSeek` and a target beyond `limit` with
`SeekPastEnd`, otherwise reposition only the inner reader.  The
`u64`/`usize` to `isize` casts and the additions wrap (`wrap64`). -/
def TruncateReadStream.seek (t : TruncateReadStream) (origin : SeekFrom) :
    Except TruncateReadStreamError (Nat × TruncateReadStream) :=
  let new : Int :=
    match origin with
    | SeekFrom.start dst => wrap64 dst
    | SeekFrom.current dst => wrap64 (wrap64 t.pos + wrap64 dst)
    | SeekFrom.fromEnd dst => wrap64 (wrap64 t.limit + wrap64 dst)
  if new < 0 then Except.error TruncateReadStreamError.negativeSeek
  else if t.limit < new.toNat then
    Except.error TruncateReadStreamError.seekPastEnd
  else Except.ok (new.toNat, { t with inner := t.inner.seekTo new.toNat })

/-- Drive repeated `read` calls with a fixed buffer size (as
`process_chunks` does with its 8 KiB buffer), concatenating the chunks
until a read returns zero bytes; `fuel` bounds the number of calls (any
`fuel > limit - pos` suffices when `bufLen > 0`).  Returns the bytes and
the final adapter state. -/
def readAllGo : Nat → TruncateReadStream → Nat → List Nat × TruncateReadStream
  | 0, t, _ => ([], t)
  | fuel + 1, t, bufLen =>
    let rd := t.read bufLen
    if rd.1.isEmpty then ([], rd.2)
    else
      let rest := readAllGo fuel rd.2 bufLen
      (rd.1 ++ rest.1, rest.2)

/-- The byte sequence the bounded adapter exposes from position `p` on:
the physically available bytes below the limit followed by fabricated
zeros up to the limit. -/
def expectedBytes (data : List Nat) (L p : Nat) : List Nat :=
  (data.drop p).take (L - p) ++
    List.replicate ((L - p) - ((data.drop p).take (L - p)).length) 0

/-- Adapter states reachable while reading `data` through a
`TruncateReadStream` with limit `L`: the position never exceeds the limit,
and the `extended` flag records whether the physical data has run out (in
which case the inner position is no longer trusted); otherwise the inner
position agrees with the adapter's. -/
def GoodState (data : List Nat) (L : Nat) (t : TruncateReadStream) : Prop :=
  t.inner.data = data ∧ t.limit = L ∧ t.pos ≤ L ∧
  (if t.extended then data.length ≤ t.pos else t.inner.pos = t.pos)

/-- The mathematically resolved seek target (no wrap-around): what the
spec means by "the position a seek resolves to". -/
def seekResolved (t : TruncateReadStream) : SeekFrom → Int
  | SeekFrom.start dst => (dst : Int)
  | SeekFrom.current dst => (t.pos : Int) + dst
  | SeekFrom.fromEnd dst => (t.limit : Int) + dst

/-- Machine-representable seek arguments: `Start` carries a `u64`,
`Current` and `End` carry an `i64`. -/
def seekInRange : SeekFrom → Prop
  | SeekFrom.start dst => (dst : Int) < 2 ^ 64
  | SeekFrom.current dst => -(2 ^ 63) ≤ dst ∧ dst < 2 ^ 63
  | SeekFrom.fromEnd dst => -(2 ^ 63) ≤ dst ∧ dst < 2 ^ 63

instance : DecidablePred seekInRange := fun o => by
  cases o <;> (unfold seekInRange; infer_instance)

/-! ### Lemmas about the bounded stream adapter -/

theorem expectedBytes_at_limit (data : List Nat) (L : Nat) :
    expectedBytes data L L = [] := by
  simp [expectedBytes]

theorem expectedBytes_zeros (data : List Nat) (L p loc : Nat)
    (hdlen : data.length ≤ p) (hlocle : loc ≤ L - p) :
    expectedBytes data L p =
      List.replicate loc 0 ++ expectedBytes data L (p + loc) := by
  have hdrop : data.drop p = [] := List.drop_eq_nil_of_le hdlen
  have hdrop2 : data.drop (p + loc) = [] := by
    apply List.drop_eq_nil_of_le
    omega
  simp only [expectedBytes, hdrop, hdrop2, List.take_nil, List.nil_append,
    List.length_nil, Nat.sub_zero]
  rw [← List.replicate_add]
  congr 1
  omega

theorem expectedBytes_chunk (data : List Nat) (L p loc : Nat)
    (hlocle : loc ≤ L - p) (hplt : p < L)
    (hne : ((data.drop p).take loc).length ≠ 0) :
    expectedBytes data L p =
      (data.drop p).take loc ++
        expectedBytes data L (p + ((data.drop p).take loc).length) := by
  have hklen : ((data.drop p).take loc).length =
      min loc (data.length - p) := by
    simp [List.length_take, List.length_drop]
  have hplen : p < data.length := by
    rw [hklen] at hne
    omega
  by_cases hfull : loc ≤ data.length - p
  · -- the source had `loc` bytes available
    have hk : ((data.drop p).take loc).length = loc := by
      rw [hklen]; omega
    rw [hk]
    simp only [expectedBytes]
    have harith : L - p = loc + (L - (p + loc)) := by omega
    have hdd : (data.drop p).drop loc = data.drop (p + loc) := by
      rw [List.drop_drop]
    have hsplit : (data.drop p).take (L - p) =
        (data.drop p).take loc ++
          (data.drop (p + loc)).take (L - (p + loc)) := by
      rw [harith, List.take_add, hdd]
    rw [hsplit, List.append_assoc]
    congr 2
    congr 1
    simp only [List.length_append, List.length_take, List.length_drop]
    omega
  · -- short read: the tail of the physical data
    have hk : ((data.drop p).take loc).length = data.length - p := by
      rw [hklen]; omega
    have hlenlt : data.length < L := by omega
    have htake : (data.drop p).take loc = data.drop p := by
      apply List.take_of_length_le
      rw [List.length_drop]
      omega
    rw [hk, htake]
    simp only [expectedBytes]
    have htake2 : (data.drop p).take (L - p) = data.drop p := by
      apply List.take_of_length_le
      rw [List.length_drop]
      omega
    have hdrop2 : data.drop (p + (data.length - p)) = [] := by
      apply List.drop_eq_nil_of_le
      omega
    rw [htake2, hdrop2]
    simp only [List.take_nil, List.nil_append, List.length_nil, Nat.sub_zero,
      List.length_drop]
    congr 2
    omega

theorem goodState_mk (idata : List Nat) (lim ip p : Nat) (ext : Bool)
    (h1 : p ≤ lim) (h2 : if ext then idata.length ≤ p else ip = p) :
    GoodState idata lim ⟨⟨idata, ip⟩, lim, p, ext⟩ :=
  ⟨rfl, rfl, h1, h2⟩

theorem truncate_read_step (data : List Nat) (L bufLen : Nat)
    (hb : 1 ≤ bufLen) (t : TruncateReadStream) (hg : GoodState data L t)
    (hne : ¬ t.pos = L) :
    GoodState data L (t.read bufLen).2 ∧
    (t.read bufLen).2.pos = t.pos + (t.read bufLen).1.length ∧
    ¬ (t.read bufLen).1.isEmpty = true ∧
    expectedBytes data L t.pos =
      (t.read bufLen).1 ++ expectedBytes data L (t.read bufLen).2.pos := by
  obtain ⟨⟨idata, ipos⟩, lim, pos0, ext0⟩ := t
  obtain ⟨hdata, hlim, hpos, hext⟩ := hg
  dsimp only at hdata hlim hpos hext hne ⊢
  subst hdata
  subst hlim
  have hplt : pos0 < lim := lt_of_le_of_ne hpos hne
  have hloc1 : 1 ≤ min bufLen (lim - pos0) := by omega
  have hlocle : min bufLen (lim - pos0) ≤ lim - pos0 := min_le_right _ _
  cases ext0 with
  | true =>
    -- a previous synthetic fill: the data is exhausted, re-seek then refill
    have hdlen : idata.length ≤ pos0 := by simpa using hext
    have hdropnil : idata.drop pos0 = [] := List.drop_eq_nil_of_le hdlen
    simp only [TruncateReadStream.read, if_neg hne, if_true,
      ArrayReader.seekTo, ArrayReader.read, hdropnil, List.take_nil,
      List.length_nil, if_pos rfl, Nat.add_zero]
    refine ⟨goodState_mk idata lim pos0 _ true (by omega)
      (by simp; omega), ?_, ?_, ?_⟩
    · simp [List.length_replicate]
    · simp [List.isEmpty_iff, List.replicate_eq_nil_iff]
      omega
    · exact expectedBytes_zeros idata lim pos0 (min bufLen (lim - pos0))
        hdlen hlocle
  | false =>
    -- the inner position is trusted
    have hip : ipos = pos0 := by simpa using hext
    subst hip
    by_cases hempty :
        ((idata.drop ipos).take (min bufLen (lim - ipos))).length = 0
    · -- the physical data ran out exactly here: fabricate zeros
      have hdlen : idata.length ≤ ipos := by
        have hm : ((idata.drop ipos).take (min bufLen (lim - ipos))).length =
            min (min bufLen (lim - ipos)) (idata.length - ipos) := by
          simp [List.length_take, List.length_drop]
        rw [hm] at hempty
        omega
      simp only [TruncateReadStream.read, if_neg hne, Bool.false_eq_true,
        if_false, ArrayReader.read]
      rw [if_pos hempty]
      simp only [hempty, Nat.add_zero]
      refine ⟨goodState_mk idata lim ipos _ true (by omega)
        (by simp; omega), ?_, ?_, ?_⟩
      · simp [List.length_replicate]
      · simp [List.isEmpty_iff, List.replicate_eq_nil_iff]
        omega
      · exact expectedBytes_zeros idata lim ipos (min bufLen (lim - ipos))
          hdlen hlocle
    · -- a real, non-empty chunk
      simp only [TruncateReadStream.read, if_neg hne, Bool.false_eq_true,
        if_false, ArrayReader.read]
      rw [if_neg hempty]
      have hkle : ((idata.drop ipos).take (min bufLen (lim - ipos))).length ≤
          min bufLen (lim - ipos) := by
        simp [List.length_take]
      refine ⟨goodState_mk idata lim _ _ false (by omega) rfl, rfl, ?_, ?_⟩
      · simpa [List.isEmpty_iff, ← List.length_eq_zero] using hempty
      · exact expectedBytes_chunk idata lim ipos (min bufLen (lim - ipos))
          hlocle hplt hempty

theorem readAllGo_expected (data : List Nat) (L bufLen : Nat)
    (hb : 1 ≤ bufLen) :
    ∀ (fuel : Nat) (t : TruncateReadStream), GoodState data L t →
      L - t.pos < fuel → t.pos ≤ L →
      (readAllGo fuel t bufLen).1 = expectedBytes data L t.pos ∧
      (readAllGo fuel t bufLen).2.pos = L ∧
      GoodState data L (readAllGo fuel t bufLen).2 := by
  intro fuel
  induction fuel with
  | zero => intro t hg hfuel hple; omega
  | succ n ih =>
    intro t hg hfuel hple
    by_cases hp : t.pos = L
    · -- end of stream exactly at the limit
      have hr : t.read bufLen = ([], t) := by
        have hl : t.pos = t.limit := by rw [hg.2.1]; exact hp
        simp [TruncateReadStream.read, hl]
      simp only [readAllGo, hr, List.isEmpty_nil, if_true]
      exact ⟨by rw [hp, expectedBytes_at_limit], hp, hg⟩
    · obtain ⟨hg', hpos', hne', hexp⟩ :=
        truncate_read_step data L bufLen hb t hg hp
      have hlen : (t.read bufLen).1.length ≠ 0 := by
        intro h0
        exact hne' (by simpa [List.isEmpty_iff, List.length_eq_zero] using h0)
      have hple' : (t.read bufLen).2.pos ≤ L := hg'.2.2.1
      have hfuel' : L - (t.read bufLen).2.pos < n := by omega
      have hrec := ih (t.read bufLen).2 hg' hfuel' hple'
      simp only [readAllGo]
      rw [if_neg hne']
      exact ⟨by rw [hrec.1, ← hexp], hrec.2.1, hrec.2.2⟩

theorem truncate_seek_errors (t : TruncateReadStream) (origin : SeekFrom)
    (hlim : t.limit < 2 ^ 63) (hpos : t.pos ≤ t.limit)
    (hrange : seekInRange origin) :
    ((t.limit : Int) < seekResolved t origin →
      ∃ e, t.seek origin = Except.error e) ∧
    (seekResolved t origin < 0 →
      t.seek origin = Except.error TruncateReadStreamError.negativeSeek) := by
  cases origin with
  | start dst =>
    unfold seekInRange at hrange
    constructor
    · intro hgt
      simp only [seekResolved] at hgt
      by_cases hv : wrap64 dst < 0
      · exact ⟨TruncateReadStreamError.negativeSeek, by
          simp only [TruncateReadStream.seek]
          rw [if_pos hv]⟩
      · refine ⟨TruncateReadStreamError.seekPastEnd, ?_⟩
        have hpe : t.limit < (wrap64 dst).toNat := by
          unfold wrap64 at hv ⊢
          omega
        simp only [TruncateReadStream.seek]
        rw [if_neg hv, if_pos hpe]
    · intro hneg
      simp only [seekResolved] at hneg
      exfalso
      omega
  | current dst =>
    unfold seekInRange at hrange
    obtain ⟨hd1, hd2⟩ := hrange
    constructor
    · intro hgt
      simp only [seekResolved] at hgt
      by_cases hv : wrap64 (wrap64 t.pos + wrap64 dst) < 0
      · exact ⟨TruncateReadStreamError.negativeSeek, by
          simp only [TruncateReadStream.seek]
          rw [if_pos hv]⟩
      · refine ⟨TruncateReadStreamError.seekPastEnd, ?_⟩
        have hpe : t.limit < (wrap64 (wrap64 t.pos + wrap64 dst)).toNat := by
          unfold wrap64 at hv ⊢
          omega
        simp only [TruncateReadStream.seek]
        rw [if_neg hv, if_pos hpe]
    · intro hneg
      simp only [seekResolved] at hneg
      have hv : wrap64 (wrap64 t.pos + wrap64 dst) < 0 := by
        unfold wrap64
        omega
      simp only [TruncateReadStream.seek]
      rw [if_pos hv]
  | fromEnd dst =>
    unfold seekInRange at hrange
    obtain ⟨hd1, hd2⟩ := hrange
    constructor
    · intro hgt
      simp only [seekResolved] at hgt
      by_cases hv : wrap64 (wrap64 t.limit + wrap64 dst) < 0
      · exact ⟨TruncateReadStreamError.negativeSeek, by
          simp only [TruncateReadStream.seek]
          rw [if_pos hv]⟩
      · refine ⟨TruncateReadStreamError.seekPastEnd, ?_⟩
        have hpe : t.limit < (wrap64 (wrap64 t.limit + wrap64 dst)).toNat := by
          unfold wrap64 at hv ⊢
          omega
        simp only [TruncateReadStream.seek]
        rw [if_neg hv, if_pos hpe]
    · intro hneg
      simp only [seekResolved] at hneg
      have hv : wrap64 (wrap64 t.limit + wrap64 dst) < 0 := by
        unfold wrap64
        omega
      simp only [TruncateReadStream.seek]
      rw [if_pos hv]

/-! ### Claim C7 -/

/-- C7: the bounded stream adapter satisfies its read/seek contract.
Reading a wrapped source physically shorter than the declared limit yields
the source's bytes followed by a fabricated zero tail so that exactly
`limit` bytes are readable, after which reads report end-of-stream; every
seek resolving to a position greater than `limit` fails with an error (a
genuinely negative resolution fails with the distinct `NegativeSeek`
error, and the two error cases are distinct values).  The seek statements
assume machine-representable states (`limit < 2^63`, `pos ≤ limit`) and
argument ranges (`u64`/`i64`), and model the `as isize` casts' wrap-around
faithfully. -/
theorem truncate_stream_contract (data : List Nat) (L bufLen : Nat)
    (hb : 1 ≤ bufLen) (hlen : data.length ≤ L) :
    ((readAllGo (L + 1) (TruncateReadStream.new ⟨data, 0⟩ L) bufLen).1 =
        data ++ List.replicate (L - data.length) 0 ∧
      (readAllGo (L + 1) (TruncateReadStream.new ⟨data, 0⟩ L)
          bufLen).1.length = L ∧
      ((readAllGo (L + 1) (TruncateReadStream.new ⟨data, 0⟩ L)
          bufLen).2.read bufLen).1 = []) ∧
    (∀ (t : TruncateReadStream) (origin : SeekFrom),
      t.limit < 2 ^ 63 → t.pos ≤ t.limit → seekInRange origin →
      ((t.limit : Int) < seekResolved t origin →
        ∃ e, t.seek origin = Except.error e) ∧
      (seekResolved t origin < 0 →
        t.seek origin = Except.error TruncateReadStreamError.negativeSeek)) ∧
    TruncateReadStreamError.negativeSeek ≠
      TruncateReadStreamError.seekPastEnd := by
  have hnew : TruncateReadStream.new ⟨data, 0⟩ L =
      (⟨⟨data, 0⟩, L, 0, false⟩ : TruncateReadStream) := by
    simp [TruncateReadStream.new]
  rw [hnew]
  have hgood : GoodState data L (⟨⟨data, 0⟩, L, 0, false⟩ :
      TruncateReadStream) :=
    ⟨rfl, rfl, Nat.zero_le _, rfl⟩
  have hrun := readAllGo_expected data L bufLen hb (L + 1)
    ⟨⟨data, 0⟩, L, 0, false⟩ hgood (by simp) (Nat.zero_le _)
  have hexp0 : expectedBytes data L 0 =
      data ++ List.replicate (L - data.length) 0 := by
    simp only [expectedBytes, List.drop_zero, Nat.sub_zero]
    rw [List.take_of_length_le hlen]
  refine ⟨⟨?_, ?_, ?_⟩, ?_, by simp⟩
  · rw [hrun.1, hexp0]
  · rw [hrun.1, hexp0]
    simp [List.length_append, List.length_replicate]
    omega
  · have hfin : (readAllGo (L + 1) (⟨⟨data, 0⟩, L, 0, false⟩ :
        TruncateReadStream) bufLen).2.pos =
        (readAllGo (L + 1) (⟨⟨data, 0⟩, L, 0, false⟩ :
          TruncateReadStream) bufLen).2.limit := by
      rw [hrun.2.1, hrun.2.2.2.1]
    simp [TruncateReadStream.read, hfin]
  · intro t origin h1 h2 h3
    exact truncate_seek_errors t origin h1 h2 h3

/-- Witness for C7: a 2-byte source read through a 4-byte bound in 3-byte
buffers yields the two physical bytes and two fabricated zeros, and a
`Current(-1)` seek from position 0 fails with `NegativeSeek`. -/
theorem truncate_stream_contract_witness :
    (readAllGo 5 (TruncateReadStream.new ⟨[1, 2], 0⟩ 4) 3).1 =
      [1, 2, 0, 0] ∧
    (TruncateReadStream.new ⟨[1, 2], 0⟩ 4).seek (SeekFrom.current (-1)) =
      Except.error TruncateReadStreamError.negativeSeek := by
  have h := truncate_stream_contract [1, 2] 4 3 (by decide) (by decide)
  refine ⟨h.1.1, ?_⟩
  exact (h.2.1 (TruncateReadStream.new ⟨[1, 2], 0⟩ 4) (SeekFrom.current (-1))
    (by decide) (by decide) (by decide)).2 (by decide)

theorem truncate_read_len (t : TruncateReadStream) (bufLen : Nat) :
    (t.read bufLen).1.length ≤ min bufLen (t.limit - t.pos) := by
  obtain ⟨⟨idata, ipos⟩, lim, pos0, ext0⟩ := t
  dsimp only
  by_cases hp : pos0 = lim
  · simp [TruncateReadStream.read, hp]
  · cases ext0 with
    | true =>
      simp only [TruncateReadStream.read, if_neg hp, if_true,
        ArrayReader.seekTo, ArrayReader.read]
      by_cases hz :
          ((idata.drop pos0).take (min bufLen (lim - pos0))).length = 0
      · rw [if_pos hz]
        simp [List.length_replicate]
      · rw [if_neg hz]
        simp [List.length_take]
    | false =>
      simp only [TruncateReadStream.read, if_neg hp, Bool.false_eq_true,
        if_false, ArrayReader.read]
      by_cases hz :
          ((idata.drop ipos).take (min bufLen (lim - pos0))).length = 0
      · rw [if_pos hz]
        simp [List.length_replicate]
      · rw [if_neg hz]
        simp [List.length_take]

/-! ### Claim C10 -/

/-- C10: a successful `seek` on the bounded adapter repositions only the
wrapped inner reader and leaves every adapter field unchanged — `pos`,
`extended` and `limit` keep their pre-seek values — so a subsequent read
clamps against the limit using the position the adapter held before the
seek (its chunk never exceeds `min bufLen (limit - pos)` for the pre-seek
`pos`), and reports end-of-stream whenever the pre-seek position equalled
the limit, regardless of the seek target. -/
theorem truncate_seek_preserves_adapter_state (t : TruncateReadStream)
    (origin : SeekFrom) (p : Nat) (t' : TruncateReadStream)
    (h : t.seek origin = Except.ok (p, t')) :
    t'.pos = t.pos ∧ t'.extended = t.extended ∧ t'.limit = t.limit ∧
    (∀ bufLen, t.pos = t.limit → (t'.read bufLen).1 = []) ∧
    (∀ bufLen, (t'.read bufLen).1.length ≤ min bufLen (t.limit - t.pos)) := by
  simp only [TruncateReadStream.seek] at h
  split at h
  · exact absurd h (by simp)
  · split at h
    · exact absurd h (by simp)
    · simp only [Except.ok.injEq, Prod.mk.injEq] at h
      obtain ⟨hp, ht'⟩ := h
      subst ht'
      refine ⟨rfl, rfl, rfl, ?_, ?_⟩
      · intro bufLen hpl
        simp [TruncateReadStream.read, hpl]
      · intro bufLen
        simpa using truncate_read_len
          { t with inner := t.inner.seekTo _ } bufLen

/-- Witness for C10: on an adapter already at its limit (pos = limit = 2),
a successful seek to start-of-stream leaves the logical position at 2, and
the next read still reports end-of-stream. -/
theorem truncate_seek_preserves_adapter_state_witness :
    (TruncateReadStream.read ⟨⟨[1, 2, 3], 1⟩, 2, 2, false⟩ 5).1 = [] ∧
    (⟨⟨[1, 2, 3], 1⟩, 2, 2, false⟩ : TruncateReadStream).pos = 2 := by
  have h := truncate_seek_preserves_adapter_state
    ⟨⟨[1, 2, 3], 0⟩, 2, 2, false⟩ (SeekFrom.start 1) 1
    ⟨⟨[1, 2, 3], 1⟩, 2, 2, false⟩ rfl
  exact ⟨h.2.2.2.1 5 rfl, h.1⟩

/-! ## Write-Backup-Segment workflow (`src/main.rs`) -/

/-- The outcome tuple of `copy_and_optionally_hash` as consumed by the
workflows: optional digest, byte count written, fatal flag, `Result`. -/
structure CopyOutcome where
  hash : Option String
  written : Nat
  fatal : Bool
  res : Option CopyErr
deriving DecidableEq, Repr

/-- Hard-failure cases of `write_backup` from `src/main.rs`. -/
inductive WBErr where
  | lookup (e : LookupErr)
  | badLocation
  | fatalNoErr
  | fatalErr (e : CopyErr)
  | zeroWrittenNoErr
  | zeroWrittenErr (e : CopyErr)
  | syncFailed
deriving DecidableEq, Repr

/-- Terminal behaviour of `write_backup` from `src/main.rs`: `exitEarly`
models the `exit(3)` call (the process exits immediately, nothing is
persisted), `ok` models a normal `(ExitCode, Index)` return (the caller
`main` then persists the returned index), `error` models a returned `Err`
(propagated by `main`, nothing persisted). -/
inductive WBOutcome where
  | exitEarly (code : Nat)
  | ok (code : Nat) (idx : Index)
  | error (e : WBErr)
deriving DecidableEq, Repr

/-- `write_backup` from `src/main.rs`.  The file opens and the copy run
are summarised by the `copy` outcome parameter (the engine itself is
verified separately as `copy_and_hash_with`); `sync_ok` is the result of
`sync_data`; `destination`, `dest_canonical` and `uuid` stand for the
destination path, its canonicalised form, and the freshly generated
fragment alias. -/
def write_backup (idx : Index) (backup_group : String) (copy : CopyOutcome)
    (sync_ok : Bool) (destination dest_canonical uuid : String) :
    WBOutcome :=
  match idx.get_fragment_by_name "main" with
  | Except.error e => WBOutcome.error (WBErr.lookup e)
  | Except.ok i =>
    let main_frag := idx.fragments.getD i default
    match main_frag.location.data with
    | LocationData.file _ =>
      let main_frag_geom := main_frag.geometry
      match determine_next_backup idx main_frag_geom backup_group with
      | none => WBOutcome.exitEarly 3
      | some to_backup =>
        if copy.fatal then
          match copy.res with
          | none => WBOutcome.error WBErr.fatalNoErr
          | some e => WBOutcome.error (WBErr.fatalErr e)
        else if copy.written = 0 then
          match copy.res with
          | none => WBOutcome.error WBErr.zeroWrittenNoErr
          | some e => WBOutcome.error (WBErr.zeroWrittenErr e)
        else if sync_ok = false then
          WBOutcome.error WBErr.syncFailed
        else
          let actually_backed_up : Slice :=
            ⟨to_backup.start, to_backup.start + copy.written⟩
          let frag : Fragment :=
            { meta := ⟨[uuid],
                [s!"Relative path during fragment creation: {destination}",
                 s!"Canonical path during fragment creation: {dest_canonical}"]⟩,
              location := ⟨LocationData.file dest_canonical, none⟩,
              groups := [backup_group],
              hashes :=
                match copy.hash with
                | some h => [(HashIdentifier.sha3_256, h)]
                | none => [],
              geometry := actually_backed_up,
              holes := [] }
          let idx' : Index :=
            { idx with fragments := idx.fragments ++ [frag] }
          match determine_next_backup idx' main_frag_geom backup_group with
          | none => WBOutcome.ok 0 idx'
          | some _ => WBOutcome.ok 3 idx'
    | _ => WBOutcome.error WBErr.badLocation

/-- The persistence step of `main` from `src/main.rs` for the write-backup
subcommand: `fs::write` runs only when the workflow returned normally. -/
def persisted_index : WBOutcome → Option Index
  | WBOutcome.ok _ idx => some idx
  | _ => none

/-- The process exit status of the write-backup subcommand: `exit(3)` and
returned `ExitCode`s surface as-is; a returned `Err` makes `main` return
`Err`, which the Rust runtime reports as exit status 1. -/
def wb_exit_code : WBOutcome → Nat
  | WBOutcome.exitEarly c => c
  | WBOutcome.ok c _ => c
  | WBOutcome.error _ => 1

/-! ### Claim C5 -/

/-- C5: in Write-Backup-Segment, whenever the copy engine reports a fatal
outcome, the workflow returns an error before appending any fragment: the
result carries no index, so nothing is persisted and the stored fragment
sequence remains exactly as loaded.  The hypotheses state that the run
actually reached the copy step (the `"main"` fragment resolved to a file
location and an uncovered range existed). -/
theorem write_backup_fatal_aborts (idx : Index) (backup_group : String)
    (copy : CopyOutcome) (sync_ok : Bool)
    (destination dest_canonical uuid : String) (i : Nat) (path : String)
    (to_backup : Slice)
    (hlookup : idx.get_fragment_by_name "main" = Except.ok i)
    (hloc : (idx.fragments.getD i default).location.data =
      LocationData.file path)
    (hnext : determine_next_backup idx
      (idx.fragments.getD i default).geometry backup_group = some to_backup)
    (hfatal : copy.fatal = true) :
    (∃ e, write_backup idx backup_group copy sync_ok destination
      dest_canonical uuid = WBOutcome.error e) ∧
    persisted_index (write_backup idx backup_group copy sync_ok destination
      dest_canonical uuid) = none := by
  have hres : write_backup idx backup_group copy sync_ok destination
      dest_canonical uuid =
      (match copy.res with
       | none => WBOutcome.error WBErr.fatalNoErr
       | some e => WBOutcome.error (WBErr.fatalErr e)) := by
    unfold write_backup
    simp only [hlookup, hloc, hnext, hfatal, if_true]
  rw [hres]
  cases copy.res with
  | none => exact ⟨⟨WBErr.fatalNoErr, rfl⟩, rfl⟩
  | some e => exact ⟨⟨WBErr.fatalErr e, rfl⟩, rfl⟩

/-- A fragment whose location is a plain file path (the shape every
workflow in `src/main.rs` produces and consumes), used to build concrete
indexes in witnesses and counterexamples. -/
def mkFileFrag (names : List String) (path : String) (gs : List String)
    (hs : List (HashIdentifier × String)) (geom : Slice) : Fragment :=
  { meta := ⟨names, []⟩, location := ⟨LocationData.file path, none⟩,
    groups := gs, hashes := hs, geometry := geom, holes := [] }

/-- Witness for C5: a concrete single-fragment index and a fatal copy
outcome produce an error and no persisted index. -/
theorem write_backup_fatal_aborts_witness :
    (∃ e, write_backup
      ⟨⟨[], []⟩, [mkFileFrag ["main"] "src" ["main"] [] ⟨0, 10⟩]⟩
      "backup" ⟨none, 4, true, some CopyErr.dstErr⟩ true "d" "dc" "u" =
        WBOutcome.error e) ∧
    persisted_index (write_backup
      ⟨⟨[], []⟩, [mkFileFrag ["main"] "src" ["main"] [] ⟨0, 10⟩]⟩
      "backup" ⟨none, 4, true, some CopyErr.dstErr⟩ true "d" "dc" "u") =
        none :=
  write_backup_fatal_aborts
    ⟨⟨[], []⟩, [mkFileFrag ["main"] "src" ["main"] [] ⟨0, 10⟩]⟩
    "backup" ⟨none, 4, true, some CopyErr.dstErr⟩ true "d" "dc" "u"
    0 "src" ⟨0, 10⟩ rfl rfl (by decide) rfl

/-! ### Claim C8 -/

/-- C8 (evaluation of the code at the failing configuration): the
"already complete" no-op outcome exits the process with status 3 — the
same status returned for "partial progress, more invocations required" —
while "backup completed by this run" returns status 0.  The spec requires
the two non-failure outcomes ("fully satisfied" and "partial progress")
never to be conflated, but an already-complete index yields exit status 3,
indistinguishable from a partial-progress run. -/
theorem write_backup_status_conflation :
    (write_backup
        ⟨⟨[], []⟩, [mkFileFrag ["main"] "src" ["main"] [] ⟨0, 10⟩,
          mkFileFrag ["b1"] "d1" ["backup"] [] ⟨0, 10⟩]⟩
        "backup" ⟨none, 4, false, none⟩ true "d" "dc" "u" =
        WBOutcome.exitEarly 3) ∧
    (wb_exit_code (write_backup
        ⟨⟨[], []⟩, [mkFileFrag ["main"] "src" ["main"] [] ⟨0, 10⟩,
          mkFileFrag ["b1"] "d1" ["backup"] [] ⟨0, 10⟩]⟩
        "backup" ⟨none, 4, false, none⟩ true "d" "dc" "u") = 3) ∧
    (wb_exit_code (write_backup
        ⟨⟨[], []⟩, [mkFileFrag ["main"] "src" ["main"] [] ⟨0, 10⟩]⟩
        "backup" ⟨none, 4, false, none⟩ true "d" "dc" "u") = 3) ∧
    ((persisted_index (write_backup
        ⟨⟨[], []⟩, [mkFileFrag ["main"] "src" ["main"] [] ⟨0, 10⟩]⟩
        "backup" ⟨none, 4, false, none⟩ true "d" "dc" "u")).isSome = true) ∧
    (wb_exit_code (write_backup
        ⟨⟨[], []⟩, [mkFileFrag ["main"] "src" ["main"] [] ⟨0, 10⟩]⟩
        "backup" ⟨none, 10, false, none⟩ true "d" "dc" "u") = 0) := by
  refine ⟨by decide, by decide, by decide, by decide, by decide⟩

/-! ## Restore-From-Fragment workflow (`src/main.rs`) -/

/-- Failure cases of `restore_from_fragment` from `src/main.rs`. -/
inductive RestoreErr where
  | lookupSrc (e : LookupErr)
  | lookupDst (e : LookupErr)
  | missingSrcHash
  | missingDstHash
  | noProvenance
  | fatalNoErr
  | fatalErr (e : CopyErr)
  | shortCopy
  | hashMismatch
deriving DecidableEq, Repr

/-- The overlap computation of `restore_from_fragment` from `src/main.rs`
(`{start: max(sa, da), end: min(sz, dz)}`), which the spec names
`overlap`. -/
def overlap (a b : Slice) : Slice :=
  ⟨max a.start b.start, min a.stop b.stop⟩

/-- The reference-digest selection of `restore_from_fragment` from
`src/main.rs`: with hashing enabled, take the source fragment's stored
digest when the overlap equals the source's full geometry, else the
destination's stored digest when it equals the destination's full
geometry, else fail (no single fragment's digest vouches for the overlap);
a missing stored digest on the selected side also fails. -/
def ref_hash_selection (idx : Index) (si di : Nat) (no_hash : Bool) :
    Except RestoreErr (Option String) :=
  let src_geo := (idx.fragments.getD si default).geometry
  let dst_geo := (idx.fragments.getD di default).geometry
  let copy_geo := overlap src_geo dst_geo
  if no_hash then Except.ok none
  else if copy_geo = src_geo then
    match lookupHash (idx.fragments.getD si default).hashes
        HashIdentifier.sha3_256 with
    | some h => Except.ok (some h)
    | none => Except.error RestoreErr.missingSrcHash
  else if copy_geo = dst_geo then
    match lookupHash (idx.fragments.getD di default).hashes
        HashIdentifier.sha3_256 with
    | some h => Except.ok (some h)
    | none => Except.error RestoreErr.missingDstHash
  else Except.error RestoreErr.noProvenance

/-- `restore_from_fragment` from `src/main.rs`: resolve the source and
destination fragments (destination defaulting to `"main"`), compute the
overlap, select the reference digest (note: this happens before the
empty-overlap check), no-op successfully when the overlap is empty,
otherwise run the copy (summarised by the `copy` outcome parameter),
abort on fatal, require the byte count to equal the overlap length, and
require the computed digest to equal the selected reference. -/
def restore_from_fragment (idx : Index) (src_name : String)
    (dst_name : Option String) (no_hash : Bool) (copy : CopyOutcome) :
    Except RestoreErr Nat :=
  match idx.get_fragment_by_name src_name with
  | Except.error e => Except.error (RestoreErr.lookupSrc e)
  | Except.ok si =>
    match idx.get_fragment_by_name (dst_name.getD "main") with
    | Except.error e => Except.error (RestoreErr.lookupDst e)
    | Except.ok di =>
      let src_geo := (idx.fragments.getD si default).geometry
      let dst_geo := (idx.fragments.getD di default).geometry
      let copy_geo := overlap src_geo dst_geo
      match ref_hash_selection idx si di no_hash with
      | Except.error e => Except.error e
      | Except.ok ref_hash =>
        if copy_geo.stop ≤ copy_geo.start then Except.ok 0
        else if copy.fatal then
          match copy.res with
          | none => Except.error RestoreErr.fatalNoErr
          | some e => Except.error (RestoreErr.fatalErr e)
        else if copy.written ≠ copy_geo.len then Except.error
          RestoreErr.shortCopy
        else if copy.hash ≠ ref_hash then Except.error
          RestoreErr.hashMismatch
        else Except.ok 0

/-! ### Claim C6 -/

/-- C6 counterexample: with hashing enabled, an empty overlap is not
always a no-op success.  Source geometry `[0,10)` and destination geometry
`[20,30)` do not overlap (`overlap = [20,10)`, empty), both fragments even
carry stored digests, yet the workflow fails with the provenance error:
the reference-digest selection runs before the empty-overlap check and the
empty overlap equals neither fragment's full geometry. -/
theorem restore_empty_overlap_fails_with_hashing :
    restore_from_fragment
      ⟨⟨[], []⟩, [mkFileFrag ["a"] "pa" ["backup"]
          [(HashIdentifier.sha3_256, "h1")] ⟨0, 10⟩,
        mkFileFrag ["main"] "pm" ["main"]
          [(HashIdentifier.sha3_256, "h2")] ⟨20, 30⟩]⟩
      "a" none false ⟨none, 0, false, none⟩ =
      Except.error RestoreErr.noProvenance ∧
    (overlap ⟨0, 10⟩ ⟨20, 30⟩).stop ≤ (overlap ⟨0, 10⟩ ⟨20, 30⟩).start :=
  ⟨rfl, by decide⟩

/-- C6 (amended): Restore-From-Fragment computes
`overlap(source.geometry, destination.geometry)` as `{max of starts, min
of ends}`, and whenever that overlap is empty the workflow copies no data
(the copy outcome is irrelevant); it returns success provided the
reference-digest selection succeeds — in particular always when hashing is
disabled.  With hashing enabled the selection runs before the empty-overlap
check, and its failure aborts the workflow with an error instead. -/
theorem restore_empty_overlap_no_copy (idx : Index) (src_name : String)
    (dst_name : Option String) (no_hash : Bool) (copy : CopyOutcome)
    (si di : Nat)
    (hs : idx.get_fragment_by_name src_name = Except.ok si)
    (hd : idx.get_fragment_by_name (dst_name.getD "main") = Except.ok di)
    (hovl : (overlap (idx.fragments.getD si default).geometry
        (idx.fragments.getD di default).geometry).stop ≤
      (overlap (idx.fragments.getD si default).geometry
        (idx.fragments.getD di default).geometry).start) :
    restore_from_fragment idx src_name dst_name no_hash copy =
      (match ref_hash_selection idx si di no_hash with
       | Except.error e => Except.error e
       | Except.ok _ => Except.ok 0) ∧
    (no_hash = true →
      restore_from_fragment idx src_name dst_name no_hash copy =
        Except.ok 0) := by
  have hmain : restore_from_fragment idx src_name dst_name no_hash copy =
      (match ref_hash_selection idx si di no_hash with
       | Except.error e => Except.error e
       | Except.ok _ => Except.ok 0) := by
    unfold restore_from_fragment
    simp only [hs, hd]
    cases hsel : ref_hash_selection idx si di no_hash with
    | error e => rfl
    | ok r => simp only [if_pos hovl]
  refine ⟨hmain, fun hnh => ?_⟩
  rw [hmain]
  subst hnh
  unfold ref_hash_selection
  simp

/-- Witness for C6 (amended): disjoint geometries with hashing disabled
are a no-op success. -/
theorem restore_empty_overlap_no_copy_witness :
    restore_from_fragment
      ⟨⟨[], []⟩, [mkFileFrag ["a"] "pa" ["backup"] [] ⟨0, 10⟩,
        mkFileFrag ["main"] "pm" ["main"] [] ⟨20, 30⟩]⟩
      "a" none true ⟨none, 7, true, some CopyErr.hashErr⟩ = Except.ok 0 :=
  (restore_empty_overlap_no_copy
    ⟨⟨[], []⟩, [mkFileFrag ["a"] "pa" ["backup"] [] ⟨0, 10⟩,
      mkFileFrag ["main"] "pm" ["main"] [] ⟨20, 30⟩]⟩
    "a" none true ⟨none, 7, true, some CopyErr.hashErr⟩ 0 1 rfl rfl
    (by decide)).2 rfl

/-! ## Validate-Hash workflow (`src/main.rs`) -/

/-- Failure cases of `validate_hash` from `src/main.rs`. -/
inductive VErr where
  | lookup (e : LookupErr)
  | mismatch
deriving DecidableEq, Repr

/-- `validate_hash` from `src/main.rs`: resolve the fragment, open its
backing file bounded to the declared geometry length via
`TruncateReadStream`, compute the digest with `hash_data` (reading in the
8 KiB chunks of `process_chunks`; the digest function itself is abstract),
then compare: a present, differing stored digest fails; a present, equal
one succeeds with status 0; an absent stored digest succeeds with the
distinct status 3 ("computed but unverifiable"). -/
def validate_hash (idx : Index) (frag_name : String)
    (h : List Nat → String) (contents : List Nat) : Except VErr Nat :=
  match idx.get_fragment_by_name frag_name with
  | Except.error e => Except.error (VErr.lookup e)
  | Except.ok i =>
    let frag := idx.fragments.getD i default
    let ref_hash := lookupHash frag.hashes HashIdentifier.sha3_256
    let geomLen := frag.geometry.len
    let digest := h (readAllGo (geomLen + 1)
      (TruncateReadStream.new ⟨contents, 0⟩ geomLen) 8192).1
    match ref_hash with
    | some r =>
      if digest = r then Except.ok 0 else Except.error VErr.mismatch
    | none => Except.ok 3

/-- The bytes the bounded adapter exposes when a file with the given
contents is opened at position 0 and read to the end: the contents clamped
to the declared length and zero-padded up to it. -/
theorem bounded_bytes (contents : List Nat) (L b : Nat) (hb : 1 ≤ b) :
    (readAllGo (L + 1) (TruncateReadStream.new ⟨contents, 0⟩ L) b).1 =
      contents.take L ++ List.replicate (L - contents.length) 0 := by
  have hnew : TruncateReadStream.new ⟨contents, 0⟩ L =
      (⟨⟨contents, 0⟩, L, 0, false⟩ : TruncateReadStream) := by
    simp [TruncateReadStream.new]
  rw [hnew]
  have hrun := readAllGo_expected contents L b hb (L + 1)
    ⟨⟨contents, 0⟩, L, 0, false⟩ ⟨rfl, rfl, Nat.zero_le _, rfl⟩ (by simp)
    (Nat.zero_le _)
  rw [hrun.1]
  simp only [expectedBytes, List.drop_zero, Nat.sub_zero]
  congr 2
  simp only [List.length_take]
  omega

/-! ### Claim C9 -/

/-- C9: for every resolvable fragment, Validate-Hash computes the digest
of the backing file bounded to the declared geometry length (clamped and
zero-padded to exactly `geometry.len` bytes) and classifies the outcome
as specified: a stored digest that differs fails with the mismatch error,
an equal stored digest succeeds with status 0 (verified), and an absent
stored digest succeeds with the distinct non-zero status 3 rather than an
error. -/
theorem validate_hash_classification (idx : Index) (frag_name : String)
    (h : List Nat → String) (contents : List Nat) (i : Nat)
    (hl : idx.get_fragment_by_name frag_name = Except.ok i) :
    validate_hash idx frag_name h contents =
      (match lookupHash (idx.fragments.getD i default).hashes
          HashIdentifier.sha3_256 with
       | some r =>
         if h (contents.take (idx.fragments.getD i default).geometry.len ++
             List.replicate ((idx.fragments.getD i default).geometry.len -
               contents.length) 0) = r
         then Except.ok 0 else Except.error VErr.mismatch
       | none => Except.ok 3) := by
  unfold validate_hash
  simp only [hl]
  rw [bounded_bytes contents (idx.fragments.getD i default).geometry.len
    8192 (by omega)]

/-- Witness for C9: a fragment of declared length 4 over a 2-byte backing
file is hashed over the zero-padded bytes `[5, 6, 0, 0]`; with the stored
digest equal to the computed one the status is 0. -/
theorem validate_hash_classification_witness :
    validate_hash
      ⟨⟨[], []⟩, [mkFileFrag ["f"] "pf" ["backup"]
        [(HashIdentifier.sha3_256, "d-5-6-0-0")] ⟨0, 4⟩]⟩
      "f" (fun bytes => if bytes = [5, 6, 0, 0] then "d-5-6-0-0" else "no")
      [5, 6] = Except.ok 0 := by
  rw [validate_hash_classification
    ⟨⟨[], []⟩, [mkFileFrag ["f"] "pf" ["backup"]
      [(HashIdentifier.sha3_256, "d-5-6-0-0")] ⟨0, 4⟩]⟩
    "f" (fun bytes => if bytes = [5, 6, 0, 0] then "d-5-6-0-0" else "no")
    [5, 6] 0 rfl]
  rfl
